import Mathlib

/-!
Verification of the DotMotion caption / narration pipeline.

Shallow embedding of the caption scheduling, audio-fit decomposition,
caption import, subtitle export, and narration orchestration code of
`dotmotion.py`, with proofs of the specification's testable properties.

Times are modelled as exact rationals (`ℚ`); Python `float` arithmetic on
the small decimal constants involved (0.4, 0.1, 0.01, 2.0, 0.5) is exact
for the algebraic structure these properties describe.
-/

/-- A caption: `(start, end, text)`, as the Python `Tuple[float, float, str]`. -/
abbrev Caption : Type := ℚ × ℚ × String

namespace DotMotion

/-- Python's binary `max` on two rationals, written so that it evaluates by
kernel reduction (the lattice `max` of `ℚ` does not). -/
def qmax (a b : ℚ) : ℚ := if a ≤ b then b else a

/-- Start time of a caption. -/
def capStart (c : Caption) : ℚ := c.1

/-- End time of a caption. -/
def capEnd (c : Caption) : ℚ := c.2.1

/-- Text of a caption. -/
def capText (c : Caption) : String := c.2.2

/-- The key order used by `sorted(captions, key=lambda x: x[0])`: compare on
the start component only. -/
def startLE (a b : Caption) : Prop := capStart a ≤ capStart b

instance : DecidableRel startLE := fun a b => inferInstanceAs (Decidable (capStart a ≤ capStart b))

/-- Python's `sorted(captions, key=lambda x: x[0])` is a stable sort on the
start component; insertion sort with the non-strict key order is stable for
the same total preorder, hence produces the identical list. -/
def sortByStart (caps : List Caption) : List Caption :=
  List.insertionSort startLE caps

/-- The scheduling walk of `_schedule_non_overlapping` (dotmotion.py:1585-1591):
for each `(s, e, t)` of the sorted list, `dur = max(0.4, e - s)`,
`start = max(s, current)`, `end = start + dur`, `current = end + min_gap_s`. -/
def scheduleWalk (gap : ℚ) : List Caption → ℚ → List Caption
  | [], _ => []
  | (s, e, t) :: rest, current =>
    let dur := qmax 0.4 (e - s)
    let start := qmax s current
    let stop := start + dur
    (start, stop, t) :: scheduleWalk gap rest (stop + gap)

/-- Model of `_schedule_non_overlapping` (dotmotion.py:1575-1592): empty input gives
`[]`; otherwise sort by start and walk with the cursor initialised to
`max(0.0, ordered[0][0])`. -/
def schedule_non_overlapping (caps : List Caption) (gap : ℚ) : List Caption :=
  match sortByStart caps with
  | [] => []
  | c :: rest => scheduleWalk gap (c :: rest) (qmax 0 (capStart c))

/-- The sequential rescheduling walk inside `auto_narrate_and_subtitle`
(dotmotion.py:1351-1356): unlike `scheduleWalk`, the new start is `current`
itself (`start = current`), not `max(s, current)`. -/
def autoSeqWalk (gap : ℚ) : List Caption → ℚ → List Caption
  | [], _ => []
  | (s, e, t) :: rest, current =>
    let dur := qmax 0.4 (e - s)
    let start := current
    let stop := start + dur
    (start, stop, t) :: autoSeqWalk gap rest (stop + gap)

/-- The `sequential=True` normalisation step of `auto_narrate_and_subtitle`
(dotmotion.py:1346-1357): if the list is nonempty, sort by start and run the
sequential walk from `max(0.0, ordered[0][0])`; an empty list stays as is. -/
def auto_narrate_reschedule (caps : List Caption) (gap : ℚ) : List Caption :=
  match sortByStart caps with
  | [] => caps
  | c :: rest => autoSeqWalk gap (c :: rest) (qmax 0 (capStart c))

/-- The cursor-domination check along the scheduling walk: at every step the
original start is at most the running cursor, so `max(s, current) = current`.
On such inputs the two walks (`scheduleWalk` and `autoSeqWalk`) coincide. -/
def cursorDominated (gap : ℚ) : List Caption → ℚ → Bool
  | [], _ => true
  | (s, e, _) :: rest, current =>
    decide (s ≤ current) &&
      cursorDominated gap rest (qmax s current + qmax 0.4 (e - s) + gap)

/-- The check `cursorDominated` lifted to the full scheduler entry point: checked on the
sorted list with the cursor initialised as in `_schedule_non_overlapping`. -/
def schedCursorDominated (caps : List Caption) (gap : ℚ) : Bool :=
  match sortByStart caps with
  | [] => true
  | c :: rest => cursorDominated gap (c :: rest) (qmax 0 (capStart c))

/-! ## Audio fitter (`_fit_audio_to_duration`, dotmotion.py:1498-1511) -/

/-- The atempo stage list built by `_fit_audio_to_duration` for a tempo ratio
`q = original / target_seconds`: repeatedly emit `2.0` while the remainder
exceeds `2.0`, then repeatedly emit `0.5` while the remainder is below `0.5`
(dividing the remainder by the emitted stage each time), and finally emit the
remainder.  The two Python `while` loops never interact (halving a ratio above
`2` cannot drop it below `1`, doubling a ratio below `0.5` cannot raise it
above `1`), so the single recursion below unrolls them faithfully.  The code
only reaches this decomposition after guarding `original > 0` and
`target_seconds > 0`, so the ratio is positive; non-positive ratios (on which
the Python loop would not terminate) are mapped to `[]` here. -/
def atempoParts (q : ℚ) : List ℚ :=
  if h0 : q ≤ 0 then []
  else if h2 : 2 < q then 2 :: atempoParts (q / 2)
  else if h5 : q < 1/2 then (1/2) :: atempoParts (q / (1/2))
  else [q]
termination_by (⌈q⌉ + ⌈1/q⌉).toNat
decreasing_by
  · have hq : (0 : ℚ) < q := lt_of_not_le h0
    have hh : (0 : ℚ) < q / 2 := by linarith
    have c1 : ⌈q / 2⌉ < ⌈q⌉ := by
      have h1 : q / 2 ≤ q - 1 := by linarith
      have h2' : ⌈q / 2⌉ ≤ ⌈q - 1⌉ := Int.ceil_le_ceil h1
      have h3 : ⌈q - 1⌉ = ⌈q⌉ - 1 := by
        have he : (q - 1 : ℚ) = q + (-1 : ℤ) := by push_cast; ring
        rw [he, Int.ceil_add_int]; ring
      omega
    have hp2 : (0 : ℚ) < 1 / (q / 2) := div_pos one_pos hh
    have hl2 : 1 / (q / 2) ≤ 1 := by
      rw [div_le_one hh]; linarith
    have c2 : ⌈1 / (q / 2)⌉ = 1 := by
      rw [Int.ceil_eq_iff]
      push_cast
      exact ⟨by linarith, hl2⟩
    have hp3 : (0 : ℚ) < 1 / q := div_pos one_pos hq
    have hl3 : 1 / q ≤ 1 := by
      rw [div_le_one hq]; linarith
    have c3 : ⌈1 / q⌉ = 1 := by
      rw [Int.ceil_eq_iff]
      push_cast
      exact ⟨by linarith, hl3⟩
    have c4 : 2 < ⌈q⌉ := by
      rw [Int.lt_ceil]; push_cast; exact h2
    omega
  · have hq : (0 : ℚ) < q := lt_of_not_le h0
    have hd : q / (1/2) = 2 * q := by ring
    have c1 : ⌈q⌉ = 1 := by
      rw [Int.ceil_eq_iff]
      push_cast
      exact ⟨by linarith, by linarith⟩
    have c2 : ⌈q / (1/2)⌉ = 1 := by
      rw [hd, Int.ceil_eq_iff]
      push_cast
      exact ⟨by linarith, by linarith⟩
    have hinv : (2 : ℚ) < 1 / q := by
      rw [lt_div_iff₀ hq]; linarith
    have c3 : ⌈1 / (q / (1/2))⌉ < ⌈1 / q⌉ := by
      have he : 1 / (q / (1/2)) = (1 / q) / 2 := by
        field_simp
      rw [he]
      have h1 : (1 / q) / 2 ≤ (1 / q) - 1 := by linarith
      have h2' : ⌈(1 / q) / 2⌉ ≤ ⌈(1 / q) - 1⌉ := Int.ceil_le_ceil h1
      have h3 : ⌈(1 / q) - 1⌉ = ⌈1 / q⌉ - 1 := by
        have he2 : ((1 / q) - 1 : ℚ) = 1 / q + (-1 : ℤ) := by push_cast; ring
        rw [he2, Int.ceil_add_int]; ring
      omega
    have c4 : 0 < ⌈1 / q⌉ := Int.ceil_pos.mpr (div_pos one_pos hq)
    have c5 : 0 < ⌈1 / (q / (1/2))⌉ := by
      refine Int.ceil_pos.mpr (div_pos one_pos ?_)
      rw [hd]; linarith
    omega

/-! ## Caption import (`load_captions_from_json` dotmotion.py:1525-1548,
`load_captions_from_csv` dotmotion.py:1551-1572) -/

/-- One entry of the parsed JSON document: either a list/tuple of at least
three elements (start, end, text all convertible), an object with optional
`start`/`end`/`text` keys (`item.get` with defaults `0.0`, `0.0`, `""`), or a
value of any other shape (skipped by the `else: continue` branch).  Numeric
fields carry the exact value `float(...)` produces. -/
inductive JsonItem : Type
  | arr (s e : ℚ) (t : String)
  | obj (s e : Option ℚ) (t : Option String)
  | other

/-- The caption produced from one JSON entry, if any: skip non-list/dict
entries, skip empty text, and clamp `end` to `start + 0.4` when
`end <= start`. -/
def jsonCaption : JsonItem → Option Caption
  | .arr s e t =>
      if t = "" then none
      else some (s, if e ≤ s then s + 0.4 else e, t)
  | .obj s? e? t? =>
      let s := s?.getD 0
      let e := e?.getD 0
      let t := t?.getD ""
      if t = "" then none
      else some (s, if e ≤ s then s + 0.4 else e, t)
  | .other => none

/-- Model of `load_captions_from_json`, on the parsed document. -/
def load_captions_from_json (items : List JsonItem) : List Caption :=
  items.filterMap jsonCaption

/-- The outcome of `float(row.get(key, 0.0))` on one CSV field: the column may
be absent from the header (`row.get` returns the default `0.0`), present with
a value `float` accepts (carrying that value), or present with a value
`float` rejects (raising, so the row is skipped by the `except: continue`). -/
inductive CsvField : Type
  | num (q : ℚ)
  | bad
  | absent

/-- A CSV data row as `csv.DictReader` hands it to the loader; `text` is the
string `str(row.get("text", ""))` evaluates to. -/
structure CsvRow : Type where
  first : CsvField
  second : CsvField
  text : String

/-- The value `float(row.get(key, 0.0))` yields, or `none` if it raises. -/
def csvFieldValue : CsvField → Option ℚ
  | .num q => some q
  | .absent => some 0
  | .bad => none

/-- The caption produced from one CSV row, if any: a row whose start or end
fails to parse is skipped, a row with empty text is skipped, and `end` is
clamped to `start + 0.4` when `end <= start`. -/
def csvCaption (r : CsvRow) : Option Caption :=
  match csvFieldValue r.first with
  | none => none
  | some s =>
    match csvFieldValue r.second with
    | none => none
    | some e =>
      if r.text = "" then none
      else some (s, if e ≤ s then s + 0.4 else e, r.text)

/-- Model of `load_captions_from_csv`, on the parsed rows. -/
def load_captions_from_csv (rows : List CsvRow) : List Caption :=
  rows.filterMap csvCaption

/-! ## Subtitle export (`SubtitleTrack`, dotmotion.py:1197-1229) -/

/-- Model of `SubtitleTrack.add_caption` (dotmotion.py:1206-1209): clamp `end_s` to
`start_s + 0.01` when `end_s <= start_s`, then append. -/
def add_caption (items : List Caption) (s e : ℚ) (t : String) : List Caption :=
  items ++ [(s, if e ≤ s then s + 0.01 else e, t)]

/-- Python `int(x)`: truncation toward zero. -/
def pyInt (x : ℚ) : ℤ := if 0 ≤ x then ⌊x⌋ else ⌈x⌉

/-- Python float `x // y` (floor division) for `y > 0`. -/
def pyFloorDiv (a b : ℚ) : ℚ := (⌊a / b⌋ : ℤ)

/-- Python float `x % y` for `y > 0`: `x - y * (x // y)`. -/
def pyMod (a b : ℚ) : ℚ := a - b * (⌊a / b⌋ : ℤ)

/-- The four numeric fields of `SubtitleTrack._format_ts`
(dotmotion.py:1211-1217): `hours = int(t // 3600)`,
`minutes = int((t % 3600) // 60)`, `seconds = int(t % 60)`,
`millis = int((t - int(t)) * 1000)`, rendered as `HH:MM:SS,mmm`. -/
def format_ts (t : ℚ) : ℤ × ℤ × ℤ × ℤ :=
  (pyInt (pyFloorDiv t 3600),
   pyInt (pyFloorDiv (pyMod t 3600) 60),
   pyInt (pyMod t 60),
   pyInt ((t - (pyInt t : ℚ)) * 1000))

/-- Reading an `HH:MM:SS,mmm` timestamp back to seconds. -/
def parse_ts (c : ℤ × ℤ × ℤ × ℤ) : ℚ :=
  (c.1 : ℚ) * 3600 + (c.2.1 : ℚ) * 60 + (c.2.2.1 : ℚ) + (c.2.2.2 : ℚ) / 1000

/-- The timing/text content of `SubtitleTrack.to_srt` (dotmotion.py:1219-1226):
one `(start timestamp, end timestamp, text)` entry per stored caption, in
stable start order. -/
def to_srt_entries (items : List Caption) :
    List ((ℤ × ℤ × ℤ × ℤ) × (ℤ × ℤ × ℤ × ℤ) × String) :=
  (sortByStart items).map (fun c => (format_ts (capStart c), format_ts (capEnd c), capText c))

/-! ## Narration orchestration (`auto_narrate_and_subtitle`,
dotmotion.py:1330-1440), modelled at the level of the artifact path returned:
the external-tool side effects (TTS synthesis, mixing, muxing, burn-in) do not
influence which path the function returns. -/

/-- The per-caption TTS file name `tts_{idx:03d}.mp3` inside the work dir. -/
def ttsPath (i : ℕ) : String := ".dotmotion_media/tts_" ++ toString i ++ ".mp3"

/-- Step 2 of `auto_narrate_and_subtitle` (dotmotion.py:1366-1381): one
`(start, audio path)` entry is appended for every caption of the ordered list
(with `constrain_tts_to_caption=False`, the default, the raw mp3 is used). -/
def ttsFiles (ordered : List Caption) : List (ℚ × String) :=
  ordered.enum.map (fun p => (capStart p.2, ttsPath p.1))

/-- Step 3 (dotmotion.py:1385-1392): two `-i` argument strings per track. -/
def ttsInputs (tts : List (ℚ × String)) : List String :=
  tts.foldr (fun p acc => "-i" :: p.2 :: acc) []

/-- The final path returned by `auto_narrate_and_subtitle`
(dotmotion.py:1393-1440): with no inputs, the subtitled temp file (if
`burn_subtitles`) or the input video itself; with inputs, `output_video`
(both the burn and the rename/copy branch return `output_video`). -/
def auto_narrate_and_subtitle (inputVideo : String) (captions : List Caption)
    (outputVideo : String) (burnSubtitles : Bool) (sequential : Bool)
    (gap : ℚ) : String :=
  let ordered := if sequential then auto_narrate_reschedule captions gap else captions
  let tts := ttsFiles ordered
  let inputs := ttsInputs tts
  if inputs.isEmpty then
    if burnSubtitles then ".dotmotion_media/temp_subbed.mp4" else inputVideo
  else outputVideo

/-- The start-key order is transitive (needed to pass from adjacent-pair
sortedness to full pairwise sortedness). -/
instance : IsTrans Caption startLE := ⟨fun _ _ _ hab hbc => le_trans hab hbc⟩

/-! ## Elementary facts about the walks -/

theorem qmax_eq_max (a b : ℚ) : qmax a b = max a b := by
  simp only [qmax, max_def]

theorem qmax_le_left (a b : ℚ) : a ≤ qmax a b := by
  rw [qmax_eq_max]; exact le_max_left a b

theorem qmax_le_right (a b : ℚ) : b ≤ qmax a b := by
  rw [qmax_eq_max]; exact le_max_right a b

theorem qmax_eq_of_le {a b : ℚ} (h : b ≤ a) : qmax a b = a := by
  rw [qmax_eq_max]; exact max_eq_left h

theorem qmax_eq_of_ge {a b : ℚ} (h : a ≤ b) : qmax a b = b := by
  rw [qmax_eq_max]; exact max_eq_right h

/-- The head of a schedule walk starts no earlier than the incoming cursor. -/
theorem scheduleWalk_head_start (gap : ℚ) :
    ∀ (l : List Caption) (cur : ℚ), ∀ c ∈ (scheduleWalk gap l cur).head?, cur ≤ capStart c := by
  intro l cur c hc
  cases l with
  | nil => simp [scheduleWalk] at hc
  | cons d rest =>
    obtain ⟨s, e, t⟩ := d
    simp only [scheduleWalk, List.head?_cons, Option.mem_def, Option.some.injEq] at hc
    subst hc
    exact qmax_le_right s cur

/-- Every caption emitted by the walk has duration at least `0.4`. -/
theorem scheduleWalk_min_duration (gap : ℚ) :
    ∀ (l : List Caption) (cur : ℚ), ∀ c ∈ scheduleWalk gap l cur,
      capStart c + 0.4 ≤ capEnd c := by
  intro l
  induction l with
  | nil => intro cur c hc; simp [scheduleWalk] at hc
  | cons d rest ih =>
    obtain ⟨s, e, t⟩ := d
    intro cur c hc
    simp only [scheduleWalk, List.mem_cons] at hc
    rcases hc with rfl | hc
    · have : (0.4 : ℚ) ≤ qmax 0.4 (e - s) := qmax_le_left _ _
      simp only [capStart, capEnd]
      linarith
    · exact ih _ c hc

/-- Adjacent entries of the walk respect the minimum gap. -/
theorem scheduleWalk_chain_gap (gap : ℚ) :
    ∀ (l : List Caption) (cur : ℚ),
      List.Chain' (fun a b => capEnd a + gap ≤ capStart b) (scheduleWalk gap l cur) := by
  intro l
  induction l with
  | nil => intro cur; simp [scheduleWalk]
  | cons d rest ih =>
    obtain ⟨s, e, t⟩ := d
    intro cur
    simp only [scheduleWalk]
    refine List.chain'_cons'.mpr ⟨?_, ih _⟩
    intro y hy
    exact scheduleWalk_head_start gap rest _ y hy

/-- Adjacent entries of the walk are in non-decreasing start order
(for a non-negative gap). -/
theorem scheduleWalk_chain_sorted {gap : ℚ} (hgap : 0 ≤ gap) :
    ∀ (l : List Caption) (cur : ℚ),
      List.Chain' startLE (scheduleWalk gap l cur) := by
  intro l
  induction l with
  | nil => intro cur; simp [scheduleWalk]
  | cons d rest ih =>
    obtain ⟨s, e, t⟩ := d
    intro cur
    simp only [scheduleWalk]
    refine List.chain'_cons'.mpr ⟨?_, ih _⟩
    intro y hy
    have h1 := scheduleWalk_head_start gap rest _ y hy
    have h2 : (0.4 : ℚ) ≤ qmax 0.4 (e - s) := qmax_le_left _ _
    simp only [startLE, capStart] at *
    linarith

/-- The walk preserves each (sorted) input caption's floored duration. -/
theorem scheduleWalk_durations (gap : ℚ) :
    ∀ (l : List Caption) (cur : ℚ),
      (scheduleWalk gap l cur).map (fun c => capEnd c - capStart c)
        = l.map (fun c => max 0.4 (capEnd c - capStart c)) := by
  intro l
  induction l with
  | nil => intro cur; simp [scheduleWalk]
  | cons d rest ih =>
    obtain ⟨s, e, t⟩ := d
    intro cur
    simp only [scheduleWalk, List.map_cons, ih]
    congr 1
    simp only [capStart, capEnd, qmax_eq_max]
    ring

/-- The walk preserves the texts of the (sorted) input captions, in order. -/
theorem scheduleWalk_texts (gap : ℚ) :
    ∀ (l : List Caption) (cur : ℚ),
      (scheduleWalk gap l cur).map capText = l.map capText := by
  intro l
  induction l with
  | nil => intro cur; simp [scheduleWalk]
  | cons d rest ih =>
    obtain ⟨s, e, t⟩ := d
    intro cur
    simp only [scheduleWalk, List.map_cons, ih]
    rfl

/-- Every start the walk emits is at least the incoming cursor
(for a non-negative gap). -/
theorem scheduleWalk_start_ge_cursor {gap : ℚ} (hgap : 0 ≤ gap) :
    ∀ (l : List Caption) (cur : ℚ), ∀ c ∈ scheduleWalk gap l cur, cur ≤ capStart c := by
  intro l
  induction l with
  | nil => intro cur c hc; simp [scheduleWalk] at hc
  | cons d rest ih =>
    obtain ⟨s, e, t⟩ := d
    intro cur c hc
    simp only [scheduleWalk, List.mem_cons] at hc
    rcases hc with rfl | hc
    · exact qmax_le_right s cur
    · have h1 := ih _ c hc
      have h2 : cur ≤ qmax s cur := qmax_le_right s cur
      have h3 : (0.4 : ℚ) ≤ qmax 0.4 (e - s) := qmax_le_left _ _
      linarith

/-- Every start the sequential walk of `auto_narrate_and_subtitle` emits is at
least the incoming cursor (for a non-negative gap). -/
theorem autoSeqWalk_start_ge_cursor {gap : ℚ} (hgap : 0 ≤ gap) :
    ∀ (l : List Caption) (cur : ℚ), ∀ c ∈ autoSeqWalk gap l cur, cur ≤ capStart c := by
  intro l
  induction l with
  | nil => intro cur c hc; simp [autoSeqWalk] at hc
  | cons d rest ih =>
    obtain ⟨s, e, t⟩ := d
    intro cur c hc
    simp only [autoSeqWalk, List.mem_cons] at hc
    rcases hc with rfl | hc
    · exact le_refl _
    · have h1 := ih _ c hc
      have h3 : (0.4 : ℚ) ≤ qmax 0.4 (e - s) := qmax_le_left _ _
      linarith

/-- On a cursor-dominated suffix the two walks coincide. -/
theorem autoSeqWalk_eq_scheduleWalk_of_dominated (gap : ℚ) :
    ∀ (l : List Caption) (cur : ℚ), cursorDominated gap l cur = true →
      autoSeqWalk gap l cur = scheduleWalk gap l cur := by
  intro l
  induction l with
  | nil => intro cur _; rfl
  | cons d rest ih =>
    obtain ⟨s, e, t⟩ := d
    intro cur hdom
    simp only [cursorDominated, Bool.and_eq_true, decide_eq_true_eq] at hdom
    obtain ⟨hs, hrest⟩ := hdom
    have hm : qmax s cur = cur := qmax_eq_of_ge hs
    rw [hm] at hrest
    simp only [autoSeqWalk, scheduleWalk, hm]
    rw [ih _ hrest]

/-- On a suffix whose captions are gap-chained, have duration at least `0.4`,
and start no earlier than the incoming cursor, the walk is the identity. -/
theorem scheduleWalk_eq_self (gap : ℚ) :
    ∀ (l : List Caption) (cur : ℚ),
      List.Chain' (fun a b => capEnd a + gap ≤ capStart b) l →
      (∀ c ∈ l, 0.4 ≤ capEnd c - capStart c) →
      (∀ c ∈ l.head?, cur ≤ capStart c) →
      scheduleWalk gap l cur = l := by
  intro l
  induction l with
  | nil => intro cur _ _ _; rfl
  | cons d rest ih =>
    obtain ⟨s, e, t⟩ := d
    intro cur hchain hdur hhead
    have hcur : cur ≤ s := hhead (s, e, t) (by simp)
    have hd : (0.4 : ℚ) ≤ e - s := hdur (s, e, t) (by simp)
    have hstart : qmax s cur = s := qmax_eq_of_le hcur
    have hdmax : qmax 0.4 (e - s) = e - s := qmax_eq_of_ge hd
    simp only [scheduleWalk, hstart, hdmax]
    have hrest : scheduleWalk gap rest (s + (e - s) + gap) = rest := by
      refine ih _ (List.Chain'.tail hchain) (fun c hc => hdur c (List.mem_cons_of_mem _ hc)) ?_
      intro c hc
      have := List.chain'_cons'.mp hchain
      have h1 := this.1 c hc
      simp only [capEnd, capStart] at h1 ⊢
      linarith
    rw [hrest]
    have hse : s + (e - s) = e := by ring
    rw [hse]

/-- A list whose stable sort by start is empty is itself empty. -/
theorem eq_nil_of_sortByStart_eq_nil {caps : List Caption}
    (hs : sortByStart caps = []) : caps = [] := by
  have hp : List.Perm (sortByStart caps) caps := List.perm_insertionSort startLE caps
  rw [hs] at hp
  exact hp.symm.eq_nil

/-! ## Facts about the atempo decomposition -/

theorem atempoParts_ne_nil (q : ℚ) (hq : 0 < q) : atempoParts q ≠ [] := by
  induction q using atempoParts.induct with
  | case1 q h0 => exact absurd h0 (not_le.mpr hq)
  | case2 q h0 h2 ih =>
    rw [atempoParts, dif_neg h0, dif_pos h2]
    simp
  | case3 q h0 h2 h5 ih =>
    rw [atempoParts, dif_neg h0, dif_neg h2, dif_pos h5]
    simp
  | case4 q h0 h2 h5 =>
    rw [atempoParts, dif_neg h0, dif_neg h2, dif_neg h5]
    simp

/-- The stage list multiplies back to the requested tempo ratio. -/
theorem atempoParts_prod (q : ℚ) (hq : 0 < q) : (atempoParts q).prod = q := by
  induction q using atempoParts.induct with
  | case1 q h0 => exact absurd h0 (not_le.mpr hq)
  | case2 q h0 h2 ih =>
    rw [atempoParts, dif_neg h0, dif_pos h2, List.prod_cons, ih (by linarith)]
    ring
  | case3 q h0 h2 h5 ih =>
    have hq' : 0 < q := lt_of_not_le h0
    have hp : 0 < q / (1/2) := by
      rw [div_pos_iff]
      left
      exact ⟨hq', by norm_num⟩
    rw [atempoParts, dif_neg h0, dif_neg h2, dif_pos h5, List.prod_cons, ih hp]
    ring
  | case4 q h0 h2 h5 =>
    rw [atempoParts, dif_neg h0, dif_neg h2, dif_neg h5, List.prod_cons, List.prod_nil]
    ring

/-- Every stage except the last is a boundary stage `2` or `0.5`. -/
theorem atempoParts_dropLast_boundary (q : ℚ) (hq : 0 < q) :
    ∀ p ∈ (atempoParts q).dropLast, p = 2 ∨ p = 1/2 := by
  induction q using atempoParts.induct with
  | case1 q h0 => exact absurd h0 (not_le.mpr hq)
  | case2 q h0 h2 ih =>
    intro p hp
    have hpos : (0 : ℚ) < q / 2 := by
      have := lt_of_not_le h0
      linarith
    have hne := atempoParts_ne_nil _ hpos
    rw [atempoParts, dif_neg h0, dif_pos h2,
      List.dropLast_cons_of_ne_nil hne] at hp
    rcases List.mem_cons.mp hp with rfl | hp
    · exact Or.inl rfl
    · exact ih hpos p hp
  | case3 q h0 h2 h5 ih =>
    intro p hp
    have hq' : 0 < q := lt_of_not_le h0
    have hpos : (0 : ℚ) < q / (1/2) := by
      rw [div_pos_iff]
      left
      exact ⟨hq', by norm_num⟩
    have hne := atempoParts_ne_nil _ hpos
    rw [atempoParts, dif_neg h0, dif_neg h2, dif_pos h5,
      List.dropLast_cons_of_ne_nil hne] at hp
    rcases List.mem_cons.mp hp with rfl | hp
    · exact Or.inr rfl
    · exact ih hpos p hp
  | case4 q h0 h2 h5 =>
    intro p hp
    rw [atempoParts, dif_neg h0, dif_neg h2, dif_neg h5] at hp
    simp at hp

/-- When the ratio exceeds `1`, every non-final stage is exactly `2`. -/
theorem atempoParts_dropLast_two (q : ℚ) (hq : 1 < q) :
    ∀ p ∈ (atempoParts q).dropLast, p = 2 := by
  induction q using atempoParts.induct with
  | case1 q h0 => exact absurd h0 (by linarith)
  | case2 q h0 h2 ih =>
    intro p hp
    have hpos : (0 : ℚ) < q / 2 := by linarith
    have hne := atempoParts_ne_nil _ hpos
    rw [atempoParts, dif_neg h0, dif_pos h2,
      List.dropLast_cons_of_ne_nil hne] at hp
    rcases List.mem_cons.mp hp with rfl | hp
    · rfl
    · exact ih (by linarith) p hp
  | case3 q h0 h2 h5 ih =>
    intro p hp
    have : (1 : ℚ) < 1/2 := lt_trans hq h5
    norm_num at this
  | case4 q h0 h2 h5 =>
    intro p hp
    rw [atempoParts, dif_neg h0, dif_neg h2, dif_neg h5] at hp
    simp at hp

/-- When the ratio is below `1`, every non-final stage is exactly `0.5`. -/
theorem atempoParts_dropLast_half (q : ℚ) (hq0 : 0 < q) (hq : q < 1) :
    ∀ p ∈ (atempoParts q).dropLast, p = 1/2 := by
  induction q using atempoParts.induct with
  | case1 q h0 => exact absurd h0 (not_le.mpr hq0)
  | case2 q h0 h2 ih =>
    intro p hp
    have : (2 : ℚ) < 1 := lt_trans h2 hq
    norm_num at this
  | case3 q h0 h2 h5 ih =>
    intro p hp
    have hq' : 0 < q := lt_of_not_le h0
    have hpos : (0 : ℚ) < q / (1/2) := by
      rw [div_pos_iff]
      left
      exact ⟨hq', by norm_num⟩
    have hlt : q / (1/2) < 1 := by
      rw [div_lt_one (by norm_num : (0:ℚ) < 1/2)] at *
      linarith
    have hne := atempoParts_ne_nil _ hpos
    rw [atempoParts, dif_neg h0, dif_neg h2, dif_pos h5,
      List.dropLast_cons_of_ne_nil hne] at hp
    rcases List.mem_cons.mp hp with rfl | hp
    · rfl
    · exact ih hpos hlt p hp
  | case4 q h0 h2 h5 =>
    intro p hp
    rw [atempoParts, dif_neg h0, dif_neg h2, dif_neg h5] at hp
    simp at hp

/-- The final stage lies inside the valid atempo band `[0.5, 2]`. -/
theorem atempoParts_getLast_in_band (q : ℚ) (hq : 0 < q) :
    ∀ p ∈ (atempoParts q).getLast?, 1/2 ≤ p ∧ p ≤ 2 := by
  induction q using atempoParts.induct with
  | case1 q h0 => exact absurd h0 (not_le.mpr hq)
  | case2 q h0 h2 ih =>
    intro p hp
    have hpos : (0 : ℚ) < q / 2 := by
      have := lt_of_not_le h0
      linarith
    obtain ⟨x, xs, hxx⟩ := List.exists_cons_of_ne_nil (atempoParts_ne_nil _ hpos)
    rw [atempoParts, dif_neg h0, dif_pos h2, hxx, List.getLast?_cons_cons] at hp
    exact ih hpos p (hxx ▸ hp)
  | case3 q h0 h2 h5 ih =>
    intro p hp
    have hq' : 0 < q := lt_of_not_le h0
    have hpos : (0 : ℚ) < q / (1/2) := by
      rw [div_pos_iff]
      left
      exact ⟨hq', by norm_num⟩
    obtain ⟨x, xs, hxx⟩ := List.exists_cons_of_ne_nil (atempoParts_ne_nil _ hpos)
    rw [atempoParts, dif_neg h0, dif_neg h2, dif_pos h5, hxx,
      List.getLast?_cons_cons] at hp
    exact ih hpos p (hxx ▸ hp)
  | case4 q h0 h2 h5 =>
    intro p hp
    rw [atempoParts, dif_neg h0, dif_neg h2, dif_neg h5] at hp
    simp only [List.getLast?_singleton, Option.mem_def, Option.some.injEq] at hp
    subst hp
    exact ⟨le_of_not_lt h5, le_of_not_lt h2⟩

/-! ## Facts about the timestamp rendering -/

theorem pyInt_intCast (z : ℤ) : pyInt (z : ℚ) = z := by
  unfold pyInt
  split
  · exact Int.floor_intCast z
  · exact Int.ceil_intCast z

theorem pyInt_eq_floor {x : ℚ} (hx : 0 ≤ x) : pyInt x = ⌊x⌋ := if_pos hx

theorem pyMod_def (a b : ℚ) : pyMod a b = a - b * (⌊a / b⌋ : ℚ) := rfl

theorem pyMod_nonneg {b : ℚ} (hb : 0 < b) (x : ℚ) : 0 ≤ pyMod x b := by
  unfold pyMod
  have h1 : (⌊x / b⌋ : ℚ) ≤ x / b := Int.floor_le _
  have h2 : (⌊x / b⌋ : ℚ) * b ≤ (x / b) * b := mul_le_mul_of_nonneg_right h1 hb.le
  rw [div_mul_cancel₀ x hb.ne'] at h2
  have h3 : b * (⌊x / b⌋ : ℚ) = (⌊x / b⌋ : ℚ) * b := mul_comm _ _
  linarith

/-- Composing `parse_ts` after `format_ts` returns the value truncated to whole milliseconds. -/
theorem parse_ts_format_ts (t : ℚ) (ht : 0 ≤ t) :
    parse_ts (format_ts t)
      = (⌊t⌋ : ℚ) + ((⌊(t - (⌊t⌋ : ℚ)) * 1000⌋ : ℚ)) / 1000 := by
  have h3600 : (0:ℚ) < 3600 := by norm_num
  have h60 : (0:ℚ) < 60 := by norm_num
  have hs0 : 0 ≤ pyMod t 60 := pyMod_nonneg h60 t
  have hint : pyInt t = ⌊t⌋ := pyInt_eq_floor ht
  have hfrac0 : 0 ≤ (t - (⌊t⌋:ℚ)) * 1000 := by
    have hfl := Int.floor_le t
    nlinarith
  have hra : pyMod t 3600 = t - 3600 * (⌊t / 3600⌋ : ℚ) := rfl
  have key1 : ⌊t / 60⌋ = 60 * ⌊t / 3600⌋ + ⌊pyMod t 3600 / 60⌋ := by
    have hdec : t / 60 = ((60 * ⌊t / 3600⌋ : ℤ) : ℚ) + pyMod t 3600 / 60 := by
      rw [hra]
      push_cast
      ring
    rw [hdec, Int.floor_int_add]
  have key2 : pyMod t 60
      = t - 3600 * (⌊t / 3600⌋ : ℚ) - 60 * (⌊pyMod t 3600 / 60⌋ : ℚ) := by
    rw [pyMod_def t 60, key1]
    push_cast
    ring
  have key3 : ⌊pyMod t 60⌋
      = ⌊t⌋ - 3600 * ⌊t / 3600⌋ - 60 * ⌊pyMod t 3600 / 60⌋ := by
    have hdec : pyMod t 60
        = t - ((3600 * ⌊t / 3600⌋ + 60 * ⌊pyMod t 3600 / 60⌋ : ℤ) : ℚ) := by
      rw [key2]
      push_cast
      ring
    rw [hdec, Int.floor_sub_int]
    ring
  have hms : pyInt ((t - (pyInt t : ℚ)) * 1000) = ⌊(t - (⌊t⌋:ℚ)) * 1000⌋ := by
    rw [hint]
    exact pyInt_eq_floor hfrac0
  simp only [format_ts, parse_ts, pyFloorDiv, pyInt_intCast, hms,
    pyInt_eq_floor hs0, key3]
  push_cast
  ring

/-- The millisecond truncation error is non-negative and below one
millisecond. -/
theorem parse_ts_format_ts_error (t : ℚ) (ht : 0 ≤ t) :
    |t - parse_ts (format_ts t)| < 1/1000 := by
  rw [parse_ts_format_ts t ht]
  have h1 : ((⌊(t - (⌊t⌋:ℚ)) * 1000⌋ : ℚ)) ≤ (t - (⌊t⌋:ℚ)) * 1000 := Int.floor_le _
  have h2 : (t - (⌊t⌋:ℚ)) * 1000 < (⌊(t - (⌊t⌋:ℚ)) * 1000⌋ : ℚ) + 1 :=
    Int.lt_floor_add_one _
  rw [abs_lt]
  constructor <;> linarith

/-! ## Facts about the caption stores -/

/-- Any caption emitted by `jsonCaption` satisfies `end > start`. -/
theorem jsonCaption_end_after_start {item : JsonItem} {c : Caption}
    (hc : jsonCaption item = some c) : capStart c < capEnd c := by
  cases item with
  | arr s e t =>
    simp only [jsonCaption] at hc
    split at hc
    · exact absurd hc (by simp)
    · rw [Option.some_inj] at hc
      subst hc
      simp only [capStart, capEnd]
      split
      · linarith
      · linarith [lt_of_not_le (by assumption : ¬ _ ≤ _)]
  | obj s? e? t? =>
    simp only [jsonCaption] at hc
    split at hc
    · exact absurd hc (by simp)
    · rw [Option.some_inj] at hc
      subst hc
      simp only [capStart, capEnd]
      split
      · linarith
      · linarith [lt_of_not_le (by assumption : ¬ _ ≤ _)]
  | other => exact absurd hc (by simp [jsonCaption])

/-- Any caption emitted by `csvCaption` satisfies `end > start`. -/
theorem csvCaption_end_after_start {r : CsvRow} {c : Caption}
    (hc : csvCaption r = some c) : capStart c < capEnd c := by
  unfold csvCaption at hc
  split at hc
  · exact absurd hc (by simp)
  · split at hc
    · exact absurd hc (by simp)
    · split at hc
      · exact absurd hc (by simp)
      · rw [Option.some_inj] at hc
        subst hc
        simp only [capStart, capEnd]
        split
        · linarith
        · linarith [lt_of_not_le (by assumption : ¬ _ ≤ _)]

/-- Captions accumulated through `SubtitleTrack.add_caption` all satisfy
`end > start`. -/
theorem add_caption_fold_end_after_start (inputs : List (ℚ × ℚ × String)) :
    ∀ acc : List Caption, (∀ c ∈ acc, capStart c < capEnd c) →
      ∀ c ∈ inputs.foldl (fun acc p => add_caption acc p.1 p.2.1 p.2.2) acc,
        capStart c < capEnd c := by
  induction inputs with
  | nil => intro acc hacc c hc; exact hacc c hc
  | cons p rest ih =>
    intro acc hacc c hc
    refine ih _ ?_ c hc
    intro d hd
    simp only [add_caption, List.mem_append] at hd
    rcases hd with hd | hd
    · exact hacc d hd
    · simp only [List.mem_singleton] at hd
      subst hd
      simp only [capStart, capEnd]
      split
      · linarith
      · linarith [lt_of_not_le (by assumption : ¬ _ ≤ _)]

/-! ## Claim theorems -/

/-- Claim C1: for every caption list and every `min_gap ≥ 0`, the output of
`_schedule_non_overlapping` is sorted by start ascending and every adjacent
pair satisfies `next.start ≥ prev.end + min_gap`. -/
theorem schedule_non_overlapping_sorted_and_gapped (caps : List Caption) (gap : ℚ)
    (hgap : 0 ≤ gap) :
    List.Sorted startLE (schedule_non_overlapping caps gap) ∧
    List.Chain' (fun a b => capEnd a + gap ≤ capStart b)
      (schedule_non_overlapping caps gap) := by
  cases hs : sortByStart caps with
  | nil => simp [schedule_non_overlapping, hs]
  | cons c rest =>
    have h1 : schedule_non_overlapping caps gap
        = scheduleWalk gap (c :: rest) (qmax 0 (capStart c)) := by
      simp [schedule_non_overlapping, hs]
    rw [h1]
    exact ⟨List.chain'_iff_pairwise.mp (scheduleWalk_chain_sorted hgap _ _),
      scheduleWalk_chain_gap gap _ _⟩

/-- Witness for C1 at the spec's own scenario
`[(0, 1, "A"), (0.5, 1.5, "B")]` with `min_gap = 0.1`. -/
theorem schedule_non_overlapping_sorted_and_gapped_witness :
    (0 : ℚ) ≤ 1/10 ∧
      (List.Sorted startLE (schedule_non_overlapping [(0, 1, "A"), (1/2, 3/2, "B")] (1/10)) ∧
       List.Chain' (fun a b => capEnd a + (1/10) ≤ capStart b)
         (schedule_non_overlapping [(0, 1, "A"), (1/2, 3/2, "B")] (1/10))) :=
  ⟨by norm_num,
   schedule_non_overlapping_sorted_and_gapped [(0, 1, "A"), (1/2, 3/2, "B")] (1/10)
     (by norm_num)⟩

/-- Claim C2, counterexample: on `[(0, 1, "A"), (5, 6, "B")]` with
`min_gap = 0.1` the sequential rescheduling inside `auto_narrate_and_subtitle`
pulls the second caption back to start `1.1`, while
`_schedule_non_overlapping` keeps its original start `5`; the two outputs
differ. -/
theorem auto_reschedule_ne_schedule_non_overlapping :
    auto_narrate_reschedule [(0, 1, "A"), (5, 6, "B")] (1/10)
      ≠ schedule_non_overlapping [(0, 1, "A"), (5, 6, "B")] (1/10) := by
  norm_num [auto_narrate_reschedule, schedule_non_overlapping, sortByStart,
    List.insertionSort, List.orderedInsert, startLE, capStart,
    autoSeqWalk, scheduleWalk, qmax]

/-- Claim C2, amended: the rescheduling inside `auto_narrate_and_subtitle`
(`sequential=True`) sets each new start to the running cursor itself, not to
`max(original_start, cursor)`; it produces the same list as
`_schedule_non_overlapping` exactly on inputs where every original start is at
most the running cursor at its step (checked by `schedCursorDominated`), and
in general the two differ. -/
theorem auto_reschedule_eq_schedule_of_dominated (caps : List Caption) (gap : ℚ)
    (hdom : schedCursorDominated caps gap = true) :
    auto_narrate_reschedule caps gap = schedule_non_overlapping caps gap := by
  cases hs : sortByStart caps with
  | nil =>
    have hc : caps = [] := eq_nil_of_sortByStart_eq_nil hs
    subst hc
    simp [auto_narrate_reschedule, schedule_non_overlapping, sortByStart,
      List.insertionSort]
  | cons c rest =>
    have h1 : auto_narrate_reschedule caps gap
        = autoSeqWalk gap (c :: rest) (qmax 0 (capStart c)) := by
      simp [auto_narrate_reschedule, hs]
    have h2 : schedule_non_overlapping caps gap
        = scheduleWalk gap (c :: rest) (qmax 0 (capStart c)) := by
      simp [schedule_non_overlapping, hs]
    have hd : cursorDominated gap (c :: rest) (qmax 0 (capStart c)) = true := by
      have := hdom
      rw [schedCursorDominated, hs] at this
      exact this
    rw [h1, h2]
    exact autoSeqWalk_eq_scheduleWalk_of_dominated gap _ _ hd

/-- Witness for the amended C2 at the overlapping pair
`[(0, 1, "A"), (0.5, 1.5, "B")]` with `min_gap = 0.1`, a cursor-dominated
input. -/
theorem auto_reschedule_eq_schedule_of_dominated_witness :
    schedCursorDominated [(0, 1, "A"), (1/2, 3/2, "B")] (1/10) = true ∧
      auto_narrate_reschedule [(0, 1, "A"), (1/2, 3/2, "B")] (1/10)
        = schedule_non_overlapping [(0, 1, "A"), (1/2, 3/2, "B")] (1/10) :=
  ⟨by norm_num [schedCursorDominated, sortByStart, List.insertionSort,
      List.orderedInsert, startLE, capStart, cursorDominated, qmax],
   auto_reschedule_eq_schedule_of_dominated [(0, 1, "A"), (1/2, 3/2, "B")] (1/10)
     (by norm_num [schedCursorDominated, sortByStart, List.insertionSort,
        List.orderedInsert, startLE, capStart, cursorDominated, qmax])⟩

/-- Claim C3: every output caption of `_schedule_non_overlapping` keeps the
floored duration `max(0.4, end - start)` of the corresponding input caption
(matched positionally through the stable sort by start), and the texts
correspond in the same order. -/
theorem schedule_non_overlapping_durations (caps : List Caption) (gap : ℚ) :
    (schedule_non_overlapping caps gap).map (fun c => capEnd c - capStart c)
      = (sortByStart caps).map (fun c => max 0.4 (capEnd c - capStart c)) ∧
    (schedule_non_overlapping caps gap).map capText = (sortByStart caps).map capText := by
  cases hs : sortByStart caps with
  | nil => simp [schedule_non_overlapping, hs]
  | cons c rest =>
    have h1 : schedule_non_overlapping caps gap
        = scheduleWalk gap (c :: rest) (qmax 0 (capStart c)) := by
      simp [schedule_non_overlapping, hs]
    rw [h1, ← hs]
    exact ⟨scheduleWalk_durations gap _ _, scheduleWalk_texts gap _ _⟩

/-- Claim C4, counterexample: the singleton `[(0, 0.1, "A")]` is sorted by start
and vacuously satisfies the adjacent min-gap condition, yet
`_schedule_non_overlapping` floors its duration to `0.4` and returns
`[(0, 0.4, "A")] ≠ [(0, 0.1, "A")]`. -/
theorem schedule_non_overlapping_not_idempotent :
    List.Sorted startLE [((0 : ℚ), (1/10 : ℚ), "A")] ∧
    List.Chain' (fun a b => capEnd a + (1/10) ≤ capStart b)
      [((0 : ℚ), (1/10 : ℚ), "A")] ∧
    schedule_non_overlapping [(0, 1/10, "A")] (1/10) ≠ [(0, 1/10, "A")] := by
  refine ⟨by simp, by simp, ?_⟩
  norm_num [schedule_non_overlapping, sortByStart, List.insertionSort,
    List.orderedInsert, scheduleWalk, qmax, capStart]

/-- Claim C4, amended: on a caption list that is sorted by start, satisfies
`next.start ≥ prev.end + min_gap` on adjacent pairs, and in addition has every
start non-negative and every duration at least `0.4` (the two clamps the
scheduler applies), `_schedule_non_overlapping` returns the list unchanged. -/
theorem schedule_non_overlapping_idempotent (caps : List Caption) (gap : ℚ)
    (hsorted : List.Sorted startLE caps)
    (hchain : List.Chain' (fun a b => capEnd a + gap ≤ capStart b) caps)
    (hcaps : ∀ c ∈ caps, 0 ≤ capStart c ∧ 0.4 ≤ capEnd c - capStart c) :
    schedule_non_overlapping caps gap = caps := by
  have hs : sortByStart caps = caps := hsorted.insertionSort_eq
  cases hc : caps with
  | nil =>
    rw [hc] at hs
    simp [schedule_non_overlapping, hs]
  | cons c rest =>
    rw [hc] at hs hchain hcaps
    have h1 : schedule_non_overlapping (c :: rest) gap
        = scheduleWalk gap (c :: rest) (qmax 0 (capStart c)) := by
      simp [schedule_non_overlapping, hs]
    have hc0 : 0 ≤ capStart c := (hcaps c (by simp)).1
    have hq0 : qmax 0 (capStart c) = capStart c := qmax_eq_of_ge hc0
    rw [h1, hq0]
    refine scheduleWalk_eq_self gap (c :: rest) (capStart c) hchain
      (fun d hd => (hcaps d hd).2) ?_
    intro d hd
    simp only [List.head?_cons, Option.mem_def, Option.some.injEq] at hd
    subst hd
    exact le_refl _

/-- Witness for the amended C4 on `[(0, 1, "A"), (2, 3, "B")]` with
`min_gap = 0.1`. -/
theorem schedule_non_overlapping_idempotent_witness :
    schedule_non_overlapping [(0, 1, "A"), (2, 3, "B")] (1/10)
      = [(0, 1, "A"), (2, 3, "B")] :=
  schedule_non_overlapping_idempotent [(0, 1, "A"), (2, 3, "B")] (1/10)
    (by norm_num [List.sorted_cons, startLE, capStart])
    (by norm_num [List.chain'_cons, List.chain'_singleton, capEnd, capStart])
    (by
      intro c hc
      simp only [List.mem_cons, List.not_mem_nil, or_false] at hc
      rcases hc with rfl | rfl <;> norm_num [capStart, capEnd])

/-- Claim C10: for every input list (negative start times included) and every
`min_gap ≥ 0`, both `_schedule_non_overlapping` and the sequential rescheduling
inside `auto_narrate_and_subtitle` only emit captions with `start ≥ 0`: the
cursor starts at `max(0, first start)` and only advances. -/
theorem schedule_starts_nonneg (caps : List Caption) (gap : ℚ) (hgap : 0 ≤ gap) :
    (∀ c ∈ schedule_non_overlapping caps gap, 0 ≤ capStart c) ∧
    (∀ c ∈ auto_narrate_reschedule caps gap, 0 ≤ capStart c) := by
  cases hs : sortByStart caps with
  | nil =>
    have hc : caps = [] := eq_nil_of_sortByStart_eq_nil hs
    subst hc
    constructor <;> intro c hmem
    · simp [schedule_non_overlapping, sortByStart, List.insertionSort] at hmem
    · simp [auto_narrate_reschedule, sortByStart, List.insertionSort] at hmem
  | cons d rest =>
    have h0 : (0 : ℚ) ≤ qmax 0 (capStart d) := qmax_le_left _ _
    constructor <;> intro c hmem
    · have h1 : schedule_non_overlapping caps gap
          = scheduleWalk gap (d :: rest) (qmax 0 (capStart d)) := by
        simp [schedule_non_overlapping, hs]
      rw [h1] at hmem
      exact le_trans h0 (scheduleWalk_start_ge_cursor hgap _ _ c hmem)
    · have h1 : auto_narrate_reschedule caps gap
          = autoSeqWalk gap (d :: rest) (qmax 0 (capStart d)) := by
        simp [auto_narrate_reschedule, hs]
      rw [h1] at hmem
      exact le_trans h0 (autoSeqWalk_start_ge_cursor hgap _ _ c hmem)

/-- Witness for C10 on a list with a negative start time. -/
theorem schedule_starts_nonneg_witness :
    (0 : ℚ) ≤ 1/10 ∧
      ((∀ c ∈ schedule_non_overlapping [(-2, -1, "A"), (3, 4, "B")] (1/10), 0 ≤ capStart c) ∧
       (∀ c ∈ auto_narrate_reschedule [(-2, -1, "A"), (3, 4, "B")] (1/10), 0 ≤ capStart c)) :=
  ⟨by norm_num, schedule_starts_nonneg [(-2, -1, "A"), (3, 4, "B")] (1/10) (by norm_num)⟩

/-- Claim C5: for every probed original duration `o > 0` and target duration
`tgt > 0` with ratio `R = o / tgt`, the atempo stage list of
`_fit_audio_to_duration` multiplies back to exactly `R`; every stage except
the last is exactly `2` when `R > 2` and exactly `0.5` when `R < 0.5` (and in
general only boundary stages precede the last); the final stage lies in
`[0.5, 2]`; and `R = 5` produces the stage list `[2.0, 2.0, 1.25]`. -/
theorem fit_audio_tempo_decomposition (o tgt : ℚ) (ho : 0 < o) (ht : 0 < tgt) :
    (atempoParts (o / tgt)).prod = o / tgt ∧
    (∀ p ∈ (atempoParts (o / tgt)).dropLast, p = 2 ∨ p = 1/2) ∧
    (2 < o / tgt → ∀ p ∈ (atempoParts (o / tgt)).dropLast, p = 2) ∧
    (o / tgt < 1/2 → ∀ p ∈ (atempoParts (o / tgt)).dropLast, p = 1/2) ∧
    (∀ p ∈ (atempoParts (o / tgt)).getLast?, 1/2 ≤ p ∧ p ≤ 2) ∧
    atempoParts 5 = [2, 2, 1.25] := by
  have hr : 0 < o / tgt := div_pos ho ht
  refine ⟨atempoParts_prod _ hr, atempoParts_dropLast_boundary _ hr,
    fun h2 => atempoParts_dropLast_two _ (by linarith), fun h5 =>
      atempoParts_dropLast_half _ hr (by linarith),
    atempoParts_getLast_in_band _ hr, ?_⟩
  rw [atempoParts, dif_neg (by norm_num), dif_pos (by norm_num),
      atempoParts, dif_neg (by norm_num), dif_pos (by norm_num),
      atempoParts, dif_neg (by norm_num), dif_neg (by norm_num), dif_neg (by norm_num)]
  norm_num

/-- Witness for C5 at `o = 5`, `tgt = 1` (ratio `5`). -/
theorem fit_audio_tempo_decomposition_witness :
    (0 : ℚ) < 5 ∧ (0 : ℚ) < 1 ∧
      ((atempoParts ((5 : ℚ) / 1)).prod = (5 : ℚ) / 1 ∧
       (∀ p ∈ (atempoParts ((5 : ℚ) / 1)).dropLast, p = 2 ∨ p = 1/2) ∧
       (2 < (5 : ℚ) / 1 → ∀ p ∈ (atempoParts ((5 : ℚ) / 1)).dropLast, p = 2) ∧
       ((5 : ℚ) / 1 < 1/2 → ∀ p ∈ (atempoParts ((5 : ℚ) / 1)).dropLast, p = 1/2) ∧
       (∀ p ∈ (atempoParts ((5 : ℚ) / 1)).getLast?, 1/2 ≤ p ∧ p ≤ 2) ∧
       atempoParts 5 = [2, 2, 1.25]) :=
  ⟨by norm_num, by norm_num,
   fit_audio_tempo_decomposition 5 1 (by norm_num) (by norm_num)⟩

/-- Claim C6, counterexample: a CSV row whose `end` field is malformed
(`float(...)` raises) is skipped entirely, not loaded with a floored
duration — `load_captions_from_csv` returns `[]` on it, not
`[(2, 2.4, "X")]` as the claim requires. -/
theorem csv_malformed_end_row_skipped :
    load_captions_from_csv [⟨CsvField.num 2, CsvField.bad, "X"⟩] = [] ∧
    load_captions_from_csv [⟨CsvField.num 2, CsvField.bad, "X"⟩] ≠ [(2, 12/5, "X")] := by
  constructor
  · rfl
  · intro h
    simp [load_captions_from_csv, List.filterMap, csvCaption, csvFieldValue] at h

/-- Claim C6, amended: in both loaders a row with a *missing* `end` value and a
non-negative start loads with `end = start + 0.4` (the missing value parses as
`0.0`, then the `end <= start` clamp fires); rows with empty text are skipped
by both loaders; a CSV row whose `start` or `end` is *malformed* is skipped
entirely; and the CSV row `start=2, end=1, text="X"` loads as
`(2, 2.4, "X")`. -/
theorem caption_import_tolerance (s : ℚ) (t : String) (hs : 0 ≤ s) (ht : t ≠ "") :
    load_captions_from_json [JsonItem.obj (some s) none (some t)] = [(s, s + 0.4, t)] ∧
    load_captions_from_csv [⟨CsvField.num s, CsvField.absent, t⟩] = [(s, s + 0.4, t)] ∧
    (∀ e? : Option ℚ, load_captions_from_json [JsonItem.obj (some s) e? (some "")] = []) ∧
    (∀ f : CsvField, load_captions_from_csv [⟨CsvField.num s, f, ""⟩] = []) ∧
    (∀ f : CsvField, load_captions_from_csv [⟨CsvField.bad, f, t⟩] = []) ∧
    load_captions_from_csv [⟨CsvField.num s, CsvField.bad, t⟩] = [] ∧
    load_captions_from_csv [⟨CsvField.num 2, CsvField.num 1, "X"⟩] = [(2, 12/5, "X")] := by
  refine ⟨?_, ?_, ?_, ?_, ?_, ?_, ?_⟩
  · simp [load_captions_from_json, jsonCaption, ht, if_pos hs]
  · simp [load_captions_from_csv, csvCaption, csvFieldValue, ht, if_pos hs]
  · intro e?
    simp [load_captions_from_json, jsonCaption]
  · intro f
    cases f <;> simp [load_captions_from_csv, csvCaption, csvFieldValue]
  · intro f
    simp [load_captions_from_csv, csvCaption, csvFieldValue]
  · simp [load_captions_from_csv, csvCaption, csvFieldValue]
  · simp only [load_captions_from_csv, List.filterMap_cons, List.filterMap_nil,
      csvCaption, csvFieldValue]
    norm_num
    rw [if_neg (show ¬("X" = "") from by decide)]

/-- Witness for the amended C6 at `s = 2`, `t = "X"`. -/
theorem caption_import_tolerance_witness :
    (0 : ℚ) ≤ 2 ∧ "X" ≠ "" ∧
      load_captions_from_json [JsonItem.obj (some 2) none (some "X")]
        = [(2, 2 + 0.4, "X")] :=
  ⟨by norm_num, by decide,
   (caption_import_tolerance 2 "X" (by norm_num) (by decide)).1⟩

/-- Claim C7: exporting a caption with non-negative times through `to_srt`
places its formatted `HH:MM:SS,mmm` start/end timestamps in the subtitle
entries, and parsing those timestamps back to seconds recovers both times with
absolute error strictly below one millisecond. -/
theorem srt_round_trip (items : List Caption) (c : Caption) (hm : c ∈ items)
    (hs : 0 ≤ capStart c) (he : 0 ≤ capEnd c) :
    (format_ts (capStart c), format_ts (capEnd c), capText c) ∈ to_srt_entries items ∧
    |capStart c - parse_ts (format_ts (capStart c))| < 1/1000 ∧
    |capEnd c - parse_ts (format_ts (capEnd c))| < 1/1000 := by
  refine ⟨?_, parse_ts_format_ts_error _ hs, parse_ts_format_ts_error _ he⟩
  have hmem : c ∈ sortByStart items :=
    (List.perm_insertionSort startLE items).mem_iff.mpr hm
  exact List.mem_map_of_mem _ hmem

/-- Witness for C7 at the caption `(3725.5, 3726.792, "A")`
(formatted as `01:02:05,500 --> 01:02:06,792`). -/
theorem srt_round_trip_witness :
    ((3725.5 : ℚ), (3726.792 : ℚ), "A") ∈ [((3725.5 : ℚ), (3726.792 : ℚ), "A")] ∧
    (0 : ℚ) ≤ capStart ((3725.5 : ℚ), (3726.792 : ℚ), "A") ∧
    (0 : ℚ) ≤ capEnd ((3725.5 : ℚ), (3726.792 : ℚ), "A") ∧
    ((format_ts (capStart ((3725.5 : ℚ), (3726.792 : ℚ), "A")),
      format_ts (capEnd ((3725.5 : ℚ), (3726.792 : ℚ), "A")),
      capText ((3725.5 : ℚ), (3726.792 : ℚ), "A"))
        ∈ to_srt_entries [((3725.5 : ℚ), (3726.792 : ℚ), "A")] ∧
     |capStart ((3725.5 : ℚ), (3726.792 : ℚ), "A")
        - parse_ts (format_ts (capStart ((3725.5 : ℚ), (3726.792 : ℚ), "A")))| < 1/1000 ∧
     |capEnd ((3725.5 : ℚ), (3726.792 : ℚ), "A")
        - parse_ts (format_ts (capEnd ((3725.5 : ℚ), (3726.792 : ℚ), "A")))| < 1/1000) :=
  ⟨by simp, by norm_num [capStart], by norm_num [capEnd],
   srt_round_trip [((3725.5 : ℚ), (3726.792 : ℚ), "A")] _ (by simp)
     (by norm_num [capStart]) (by norm_num [capEnd])⟩

/-- Claim C8: with an empty caption list — hence zero synthesized audio
tracks — and `burn_subtitles=False`, `auto_narrate_and_subtitle` returns the
input video path itself, not a mixed or muxed artifact. -/
theorem auto_narrate_empty_passthrough (inputVideo outputVideo : String)
    (sequential : Bool) (gap : ℚ) :
    auto_narrate_and_subtitle inputVideo [] outputVideo false sequential gap
      = inputVideo := by
  cases sequential <;>
    simp [auto_narrate_and_subtitle, auto_narrate_reschedule, sortByStart,
      List.insertionSort, ttsFiles, ttsInputs]

/-- Claim C9: every caption stored through `SubtitleTrack.add_caption` or either
caption loader satisfies `end > start`, enforced by clamping: `add_caption`
stores `end = start + 0.01` whenever `end <= start`, and both loaders store
`end = start + 0.4` whenever the parsed `end <= start`. -/
theorem caption_end_after_start (inputs : List (ℚ × ℚ × String))
    (rows : List CsvRow) (jitems : List JsonItem) (s e : ℚ) (t : String) :
    (∀ c ∈ inputs.foldl (fun acc p => add_caption acc p.1 p.2.1 p.2.2)
        ([] : List Caption), capStart c < capEnd c) ∧
    (e ≤ s → add_caption [] s e t = [(s, s + 0.01, t)]) ∧
    (∀ c ∈ load_captions_from_json jitems, capStart c < capEnd c) ∧
    (∀ c ∈ load_captions_from_csv rows, capStart c < capEnd c) ∧
    (e ≤ s → t ≠ "" →
      load_captions_from_json [JsonItem.arr s e t] = [(s, s + 0.4, t)] ∧
      load_captions_from_csv [⟨CsvField.num s, CsvField.num e, t⟩]
        = [(s, s + 0.4, t)]) := by
  refine ⟨?_, ?_, ?_, ?_, ?_⟩
  · exact add_caption_fold_end_after_start inputs [] (by simp)
  · intro hes
    simp [add_caption, if_pos hes]
  · intro c hc
    obtain ⟨item, _, hsome⟩ := List.mem_filterMap.mp hc
    exact jsonCaption_end_after_start hsome
  · intro c hc
    obtain ⟨r, _, hsome⟩ := List.mem_filterMap.mp hc
    exact csvCaption_end_after_start hsome
  · intro hes htt
    constructor
    · simp [load_captions_from_json, jsonCaption, htt, if_pos hes]
    · simp [load_captions_from_csv, csvCaption, csvFieldValue, htt, if_pos hes]

/-- Witness for C9 at `s = 2`, `e = 1`, `t = "X"` (both clamps firing). -/
theorem caption_end_after_start_witness :
    add_caption [] 2 1 "X" = [(2, 2 + 0.01, "X")] ∧
    load_captions_from_json [JsonItem.arr 2 1 "X"] = [(2, 2 + 0.4, "X")] :=
  ⟨(caption_end_after_start [] [] [] 2 1 "X").2.1 (by norm_num),
   ((caption_end_after_start [] [] [] 2 1 "X").2.2.2.2 (by norm_num) (by decide)).1⟩

end DotMotion


